import Mathlib

/-!
Shallow embedding of the holdings-aggregation and rebalance-suggestion engine
of `app/services/rebalance.py`, together with proofs of the specified
properties.  Monetary amounts and prices are modelled as rationals; Python
dictionaries are modelled as association lists with insertion-order update
semantics (`dsetKey` replaces in place, appends fresh keys at the end), and
SQL `ORDER BY` clauses are modelled with `List.mergeSort`.
-/

namespace Accounting

/-- The transaction kinds of `models.TransactionType`. -/
inductive TransactionType
  | expense
  | income
  | trade
  | transfer
  | rebalance
deriving DecidableEq, Repr

/-- The columns of `models.Transaction` that the aggregation code reads. -/
structure Txn where
  user_id : Int
  account_id : Option Int
  type : TransactionType
  from_asset_id : Option Int
  from_amount : Option ℚ
  to_asset_id : Option Int
  to_amount : Option ℚ
deriving DecidableEq, Repr

/-- A row of `models.Price`: timestamps are modelled as integers. -/
structure PriceRow where
  asset_id : Int
  ts : Int
  price : ℚ
  base_currency : String
deriving DecidableEq, Repr

/-- The columns of `models.Allocation` used by `suggest_rebalance`. -/
structure Alloc where
  portfolio_id : Int
  asset_id : Int
  target_weight : ℚ
deriving DecidableEq, Repr

/-- Python truthiness of an optional integer id: `None` and `0` are falsy. -/
def truthyId : Option Int → Bool
  | none => false
  | some i => i != 0

/-- Python truthiness of an optional amount: `None` and `0` are falsy. -/
def truthyAmt : Option ℚ → Bool
  | none => false
  | some a => a != 0

/-- First-match lookup in an association list (Python `d[k]` / `d.get(k)`). -/
def alookup {β : Type} : List (Int × β) → Int → Option β
  | [], _ => none
  | (k, v) :: rest, k' => if k' = k then some v else alookup rest k'

/-- Python `d.get(k, dflt)`. -/
def getD {β : Type} (l : List (Int × β)) (k : Int) (dflt : β) : β :=
  (alookup l k).getD dflt

/-- Python `d[k] = v`: replace the value in place if the key is present,
otherwise append the new pair at the end (insertion order). -/
def dsetKey {β : Type} : List (Int × β) → Int → β → List (Int × β)
  | [], k, v => [(k, v)]
  | (k0, v0) :: rest, k, v =>
      if k = k0 then (k0, v) :: rest else (k0, v0) :: dsetKey rest k v

/-- Python `d[k] = d.get(k, 0.0) + x` on a numeric dictionary. -/
def dictAdd (l : List (Int × ℚ)) (k : Int) (x : ℚ) : List (Int × ℚ) :=
  dsetKey l k (getD l k 0 + x)

/-- The dust threshold `1e-10` of the holdings aggregators. -/
def dust : ℚ := 1 / 10 ^ 10

/-- The value threshold `1e-6` of the rebalance planner. -/
def epsilon : ℚ := 1 / 10 ^ 6

/-- The SQL filter `Transaction.type IN (trade, rebalance)`. -/
def isTradeOrRebalance : TransactionType → Bool
  | TransactionType.trade => true
  | TransactionType.rebalance => true
  | _ => false

/-- One iteration of the accumulation loop of `compute_holdings`:
`if from_asset_id and from_amount: qty[from] -= from_amount;`
`if to_asset_id and to_amount: qty[to] += to_amount`. -/
def holdingsStep (qty : List (Int × ℚ)) (t : Txn) : List (Int × ℚ) :=
  let q1 :=
    if truthyId t.from_asset_id && truthyAmt t.from_amount then
      dictAdd qty (t.from_asset_id.getD 0) (-(t.from_amount.getD 0))
    else qty
  if truthyId t.to_asset_id && truthyAmt t.to_amount then
    dictAdd q1 (t.to_asset_id.getD 0) (t.to_amount.getD 0)
  else q1

/-- The SQL `WHERE` clause of `compute_holdings`: the user's transactions of
kind trade or rebalance. -/
def userRows (user_id : Int) (txns : List Txn) : List Txn :=
  txns.filter (fun t => t.user_id == user_id && isTradeOrRebalance t.type)

/-- `compute_holdings(session, user_id)`: aggregate the user's trade and
rebalance transactions by asset, then drop near-zero dust. -/
def compute_holdings (user_id : Int) (txns : List Txn) : List (Int × ℚ) :=
  let qty := (userRows user_id txns).foldl holdingsStep []
  qty.filter (fun p => decide (dust < |p.2|))

/-- The SQL filter of `compute_holdings_by_account`:
`type IN (trade, rebalance, expense, income)`. -/
def isAcctKind : TransactionType → Bool
  | TransactionType.trade => true
  | TransactionType.rebalance => true
  | TransactionType.expense => true
  | TransactionType.income => true
  | _ => false

/-- The inner helper `_add` of `compute_holdings_by_account`: skip falsy
asset ids and zero deltas, otherwise `acct_map[aid] = acct_map.get(aid, 0.0) + delta`. -/
def acctAdd (m : List (Int × ℚ)) (asset_id : Option Int) (delta : ℚ) : List (Int × ℚ) :=
  if !truthyId asset_id || decide (|delta| ≤ 0) then m
  else dictAdd m (asset_id.getD 0) delta

/-- One iteration of the loop of `compute_holdings_by_account`: skip
transactions with no account, `setdefault` the account's map, then apply
the per-kind accumulation rule. -/
def acctStep (outer : List (Int × List (Int × ℚ))) (t : Txn) :
    List (Int × List (Int × ℚ)) :=
  match t.account_id with
  | none => outer
  | some acct =>
    let m0 := getD outer acct []
    let m1 :=
      match t.type with
      | TransactionType.trade | TransactionType.rebalance =>
        let ma :=
          if truthyId t.from_asset_id && truthyAmt t.from_amount then
            acctAdd m0 t.from_asset_id (-(t.from_amount.getD 0))
          else m0
        if truthyId t.to_asset_id && truthyAmt t.to_amount then
          acctAdd ma t.to_asset_id (t.to_amount.getD 0)
        else ma
      | TransactionType.expense =>
        if truthyId t.from_asset_id && truthyAmt t.from_amount then
          acctAdd m0 t.from_asset_id (-(t.from_amount.getD 0))
        else m0
      | TransactionType.income =>
        if truthyId t.to_asset_id && truthyAmt t.to_amount then
          acctAdd m0 t.to_asset_id (t.to_amount.getD 0)
        else m0
      | TransactionType.transfer => m0
    dsetKey outer acct m1

/-- The SQL `WHERE` clause of `compute_holdings_by_account`: the user's
transactions of kind trade, rebalance, expense or income. -/
def acctRows (user_id : Int) (txns : List Txn) : List Txn :=
  txns.filter (fun t => t.user_id == user_id && isAcctKind t.type)

/-- `compute_holdings_by_account(session, user_id)`: aggregate per account and
asset, dust-filter each account's map, and drop accounts left empty. -/
def compute_holdings_by_account (user_id : Int) (txns : List Txn) :
    List (Int × List (Int × ℚ)) :=
  let by_account := (acctRows user_id txns).foldl acctStep []
  (by_account.map (fun p => (p.1, p.2.filter (fun q => decide (dust < |q.2|))))).filter
    (fun p => !p.2.isEmpty)

/-- The SQL `ORDER BY Price.asset_id, Price.ts DESC` of `_latest_price_map`,
as a Boolean total preorder on price rows. -/
def priceLE (a b : PriceRow) : Bool :=
  decide (a.asset_id < b.asset_id) ||
    (a.asset_id == b.asset_id && decide (b.ts ≤ a.ts))

/-- `_latest_price_map(session, base_currency)`: filter rows to the requested
currency, order by asset id then timestamp descending, and keep the first
occurrence per asset (the latest one). -/
def latest_price_map (prices : List PriceRow) (base_currency : String) :
    List (Int × ℚ) :=
  let rows := (prices.filter (fun p => p.base_currency == base_currency)).mergeSort priceLE
  rows.foldl
    (fun latest r =>
      if (alookup latest r.asset_id).isNone then dsetKey latest r.asset_id r.price
      else latest)
    []

/-- `compute_values(weights_assets, quantities, price_map)`: value each
requested asset that has a price, skipping unpriced assets, and sum. -/
def compute_values (weights_assets : List Int) (quantities price_map : List (Int × ℚ)) :
    ℚ × List (Int × ℚ) :=
  weights_assets.foldl
    (fun acc aid =>
      match alookup price_map aid with
      | none => acc
      | some p =>
          (acc.1 + getD quantities aid 0 * p,
           dsetKey acc.2 aid (getD quantities aid 0 * p)))
    (0, [])

/-- The greedy pairing loop of `suggest_rebalance`: pop the current source and
destination, break on a missing or non-positive source price, move
`min(from_value, to_value)` of value, and advance whichever side drops to the
`1e-6` threshold. -/
def pairLoop (pm : List (Int × ℚ)) :
    List (Int × ℚ) → List (Int × ℚ) → List (Int × Int × ℚ)
  | [], _ => []
  | _ :: _, [] => []
  | (fa, fv) :: ss, (ta, tv) :: ds =>
    match alookup pm fa with
    | none => []
    | some p =>
      if p ≤ 0 then []
      else
        (fa, ta, min fv tv / p) ::
          pairLoop pm
            (if fv - min fv tv ≤ epsilon then ss else (fa, fv - min fv tv) :: ss)
            (if tv - min fv tv ≤ epsilon then ds else (ta, tv - min fv tv) :: ds)
termination_by ss ds => ss.length + ds.length
decreasing_by
  have heps : (0:ℚ) ≤ epsilon := by norm_num [epsilon]
  by_cases h : fv ≤ tv
  · have h0 : fv - min fv tv = 0 := by rw [min_eq_left h, sub_self]
    rw [h0, dif_pos heps]
    split <;> simp only [List.length_cons] <;> omega
  · have h0 : tv - min fv tv = 0 := by rw [min_eq_right (le_of_not_le h), sub_self]
    rw [h0, dif_pos heps]
    split <;> simp only [List.length_cons] <;> omega

/-- The `WHERE Allocation.portfolio_id == portfolio_id` filter. -/
def allocsFor (allocations : List Alloc) (portfolio_id : Int) : List Alloc :=
  allocations.filter (fun a => a.portfolio_id == portfolio_id)

/-- `target_weights = {a.asset_id: a.target_weight for a in allocations}`. -/
def targetWeightsOf (allocations : List Alloc) (portfolio_id : Int) : List (Int × ℚ) :=
  (allocsFor allocations portfolio_id).foldl (fun d a => dsetKey d a.asset_id a.target_weight) []

/-- `asset_ids = list(target_weights.keys())`. -/
def assetIdsOf (allocations : List Alloc) (portfolio_id : Int) : List Int :=
  (targetWeightsOf allocations portfolio_id).map Prod.fst

/-- The `(total_value, values)` pair computed inside `suggest_rebalance`. -/
def valuesPair (allocations : List Alloc) (prices : List PriceRow) (txns : List Txn)
    (portfolio_id : Int) (base_currency : String) (user_id : Int) : ℚ × List (Int × ℚ) :=
  compute_values (assetIdsOf allocations portfolio_id)
    (compute_holdings user_id txns) (latest_price_map prices base_currency)

/-- `deltas = {aid: target_weights[aid] * total_value - values.get(aid, 0.0)}`. -/
def deltasOf (allocations : List Alloc) (prices : List PriceRow) (txns : List Txn)
    (portfolio_id : Int) (base_currency : String) (user_id : Int) : List (Int × ℚ) :=
  let vp := valuesPair allocations prices txns portfolio_id base_currency user_id
  (assetIdsOf allocations portfolio_id).map
    (fun aid => (aid, getD (targetWeightsOf allocations portfolio_id) aid 0 * vp.1 - getD vp.2 aid 0))

/-- `sources = [(aid, -delta) for aid, delta in deltas.items() if delta < -1e-6]`. -/
def sourcesOf (allocations : List Alloc) (prices : List PriceRow) (txns : List Txn)
    (portfolio_id : Int) (base_currency : String) (user_id : Int) : List (Int × ℚ) :=
  ((deltasOf allocations prices txns portfolio_id base_currency user_id).filter
      (fun p => decide (p.2 < -epsilon))).map (fun p => (p.1, -p.2))

/-- `dests = [(aid, delta) for aid, delta in deltas.items() if delta > 1e-6]`. -/
def destsOf (allocations : List Alloc) (prices : List PriceRow) (txns : List Txn)
    (portfolio_id : Int) (base_currency : String) (user_id : Int) : List (Int × ℚ) :=
  (deltasOf allocations prices txns portfolio_id base_currency user_id).filter
    (fun p => decide (epsilon < p.2))

/-- Python `list.sort(key=lambda x: x[1], reverse=True)`: a stable descending
sort by the second component. -/
def valueDesc (a b : Int × ℚ) : Bool := decide (b.2 ≤ a.2)

/-- The result tuple of `suggest_rebalance`. -/
structure RebalanceResult where
  total_value : ℚ
  current_weights : List (Int × ℚ)
  target_weights : List (Int × ℚ)
  legs : List (Int × Int × ℚ)
deriving DecidableEq, Repr

/-- `suggest_rebalance(session, portfolio_id, base_currency, user_id)`. -/
def suggest_rebalance (allocations : List Alloc) (prices : List PriceRow) (txns : List Txn)
    (portfolio_id : Int) (base_currency : String) (user_id : Int) : RebalanceResult :=
  if (allocsFor allocations portfolio_id).isEmpty then ⟨0, [], [], []⟩
  else
    let target_weights := targetWeightsOf allocations portfolio_id
    let asset_ids := assetIdsOf allocations portfolio_id
    let price_map := latest_price_map prices base_currency
    let vp := valuesPair allocations prices txns portfolio_id base_currency user_id
    if vp.1 ≤ 0 then ⟨0, [], target_weights, []⟩
    else
      let current_weights := asset_ids.map (fun aid => (aid, getD vp.2 aid 0 / vp.1))
      let sources :=
        (sourcesOf allocations prices txns portfolio_id base_currency user_id).mergeSort valueDesc
      let dests :=
        (destsOf allocations prices txns portfolio_id base_currency user_id).mergeSort valueDesc
      ⟨vp.1, current_weights, target_weights, pairLoop price_map sources dests⟩

/-! ### Specification-side accumulators

The next definitions restate the accumulation rules in the spec's own words
("subtract `from_amount` from `from_asset` when both are present", etc.), to
be compared with the code-derived definitions above. -/

/-- Code-side signed contribution of one trade/rebalance transaction to one
asset's net quantity (with Python truthiness on ids and amounts). -/
def txnDelta (aid : Int) (t : Txn) : ℚ :=
  (if truthyId t.from_asset_id ∧ truthyAmt t.from_amount ∧ aid = t.from_asset_id.getD 0
    then -(t.from_amount.getD 0) else 0) +
  (if truthyId t.to_asset_id ∧ truthyAmt t.to_amount ∧ aid = t.to_asset_id.getD 0
    then t.to_amount.getD 0 else 0)

/-- Code-side net quantity of one asset over the user's trade/rebalance rows. -/
def netQty (user_id aid : Int) (txns : List Txn) : ℚ :=
  ((userRows user_id txns).map (txnDelta aid)).sum

/-- The contribution of one (asset, amount) pair of a transaction to asset
`aid`, under the spec's presence rule: it counts exactly when both the asset
and the amount are present. -/
def presentDelta (o : Option Int) (m : Option ℚ) (aid : Int) : ℚ :=
  match o, m with
  | some f, some x => if f = aid then x else 0
  | _, _ => 0

/-- Spec-side contribution: subtract `from_amount` from `from_asset` when both
are present, add `to_amount` to `to_asset` when both are present. -/
def specDelta (aid : Int) (t : Txn) : ℚ :=
  -(presentDelta t.from_asset_id t.from_amount aid) +
    presentDelta t.to_asset_id t.to_amount aid

/-- Spec-side net quantity of one asset over the user's trade/rebalance rows. -/
def specNet (user_id aid : Int) (txns : List Txn) : ℚ :=
  ((userRows user_id txns).map (specDelta aid)).sum

/-- Spec-side per-account contribution of one transaction: the trade/rebalance
from/to rule, expense subtracts `from_amount` from `from_asset`, income adds
`to_amount` to `to_asset`. -/
def acctSpecDelta (aid : Int) (t : Txn) : ℚ :=
  match t.type with
  | TransactionType.trade | TransactionType.rebalance => specDelta aid t
  | TransactionType.expense => -(presentDelta t.from_asset_id t.from_amount aid)
  | TransactionType.income => presentDelta t.to_asset_id t.to_amount aid
  | TransactionType.transfer => 0

/-- Code-side per-account contribution of one transaction (with truthiness). -/
def acctTxnDelta (aid : Int) (t : Txn) : ℚ :=
  match t.type with
  | TransactionType.trade | TransactionType.rebalance => txnDelta aid t
  | TransactionType.expense =>
    if truthyId t.from_asset_id ∧ truthyAmt t.from_amount ∧ aid = t.from_asset_id.getD 0
      then -(t.from_amount.getD 0) else 0
  | TransactionType.income =>
    if truthyId t.to_asset_id ∧ truthyAmt t.to_amount ∧ aid = t.to_asset_id.getD 0
      then t.to_amount.getD 0 else 0
  | TransactionType.transfer => 0

/-- The rows of the transaction log that contribute to one account's view:
the user's trade/rebalance/expense/income transactions tied to that account. -/
def acctUserRows (user_id acct : Int) (txns : List Txn) : List Txn :=
  txns.filter (fun t =>
    t.user_id == user_id && isAcctKind t.type && t.account_id == some acct)

/-- Code-side net quantity of one asset in one account. -/
def netAcctQty (user_id acct aid : Int) (txns : List Txn) : ℚ :=
  (((acctRows user_id txns).filter (fun t => t.account_id == some acct)).map
    (acctTxnDelta aid)).sum

/-- Spec-side per-account net quantity of one asset. -/
def acctSpecNet (user_id acct aid : Int) (txns : List Txn) : ℚ :=
  ((acctUserRows user_id acct txns).map (acctSpecDelta aid)).sum

/-- Nested lookup in the per-account holdings mapping. -/
def alookup2 (outer : List (Int × List (Int × ℚ))) (acct aid : Int) : Option ℚ :=
  (alookup outer acct).bind (fun m => alookup m aid)

/-- Sum over a list of legs of the value moved, `quantity_from` times the
source asset's price. -/
def legsMoveValue (pm : List (Int × ℚ)) (legs : List (Int × Int × ℚ)) : ℚ :=
  (legs.map (fun l => l.2.2 * getD pm l.1 0)).sum

/-! ### Association-list lemmas -/

theorem alookup_dsetKey_self {β : Type} (l : List (Int × β)) (k : Int) (v : β) :
    alookup (dsetKey l k v) k = some v := by
  induction l with
  | nil => simp [dsetKey, alookup]
  | cons p rest ih =>
    obtain ⟨k0, v0⟩ := p
    by_cases h : k = k0
    · simp [dsetKey, alookup, h]
    · simp [dsetKey, alookup, h, ih]

theorem alookup_dsetKey_ne {β : Type} (l : List (Int × β)) (k k' : Int) (v : β)
    (h : k' ≠ k) : alookup (dsetKey l k v) k' = alookup l k' := by
  induction l with
  | nil => simp [dsetKey, alookup, h]
  | cons p rest ih =>
    obtain ⟨k0, v0⟩ := p
    by_cases h0 : k = k0
    · subst h0
      simp [dsetKey, alookup, h]
    · by_cases h1 : k' = k0
      · simp [dsetKey, alookup, h0, h1]
      · simp [dsetKey, alookup, h0, h1, ih]

theorem getD_dictAdd (l : List (Int × ℚ)) (k a : Int) (x : ℚ) :
    getD (dictAdd l k x) a 0 = getD l a 0 + (if a = k then x else 0) := by
  by_cases h : a = k
  · subst h
    simp [dictAdd, getD, alookup_dsetKey_self]
  · simp [dictAdd, getD, alookup_dsetKey_ne _ _ _ _ h, h]

theorem alookup_eq_none_iff {β : Type} (l : List (Int × β)) (k : Int) :
    alookup l k = none ↔ k ∉ l.map Prod.fst := by
  induction l with
  | nil => simp [alookup]
  | cons p rest ih =>
    obtain ⟨k0, v0⟩ := p
    by_cases h : k = k0
    · simp [alookup, h]
    · simp [alookup, h, ih]

theorem alookup_filter {β : Type} (p : Int × β → Bool) (l : List (Int × β))
    (hnd : (l.map Prod.fst).Nodup) (k : Int) :
    alookup (l.filter p) k =
      (alookup l k).bind (fun v => if p (k, v) then some v else none) := by
  induction l with
  | nil => simp [alookup]
  | cons q rest ih =>
    obtain ⟨k0, v0⟩ := q
    simp only [List.map_cons, List.nodup_cons] at hnd
    obtain ⟨hk0, hrest⟩ := hnd
    by_cases h : k = k0
    · subst h
      by_cases hp : p (k, v0)
      · simp [List.filter_cons, hp, alookup]
      · have hnone : alookup (rest.filter p) k = none := by
          rw [alookup_eq_none_iff]
          intro hmem
          apply hk0
          obtain ⟨q', hq', hfst⟩ := List.mem_map.mp hmem
          exact hfst ▸ List.mem_map_of_mem Prod.fst (List.mem_of_mem_filter hq')
        simp [List.filter_cons, hp, alookup, hnone]
    · by_cases hp : p (k0, v0)
      · simp [List.filter_cons, hp, alookup, h, ih hrest]
      · simp [List.filter_cons, hp, alookup, h, ih hrest]

theorem keys_dsetKey {β : Type} (l : List (Int × β)) (k : Int) (v : β) :
    (dsetKey l k v).map Prod.fst =
      if k ∈ l.map Prod.fst then l.map Prod.fst else l.map Prod.fst ++ [k] := by
  induction l with
  | nil => simp [dsetKey]
  | cons p rest ih =>
    obtain ⟨k0, v0⟩ := p
    by_cases h : k = k0
    · simp [dsetKey, h]
    · by_cases hk : k ∈ rest.map Prod.fst
      · simp [dsetKey, h, ih, hk, Ne.symm h]
      · simp [dsetKey, h, ih, hk, Ne.symm h]

theorem nodup_keys_dsetKey {β : Type} (l : List (Int × β)) (k : Int) (v : β)
    (h : (l.map Prod.fst).Nodup) : ((dsetKey l k v).map Prod.fst).Nodup := by
  rw [keys_dsetKey]
  by_cases hk : k ∈ l.map Prod.fst
  · rw [if_pos hk]; exact h
  · rw [if_neg hk, List.nodup_append]
    refine ⟨h, List.nodup_singleton k, ?_⟩
    intro a ha hak
    rw [List.mem_singleton] at hak
    exact hk (hak ▸ ha)

theorem alookup_map_graph {β : Type} (f : Int → β) (l : List Int) (k : Int) :
    alookup (l.map (fun a => (a, f a))) k = if k ∈ l then some (f k) else none := by
  induction l with
  | nil => simp [alookup]
  | cons a rest ih =>
    by_cases h : k = a
    · subst h
      simp [alookup]
    · simp [alookup, h, ih]

theorem alookup_map_val {β γ : Type} (f : β → γ) (l : List (Int × β)) (k : Int) :
    alookup (l.map (fun p => (p.1, f p.2))) k = (alookup l k).map f := by
  induction l with
  | nil => simp [alookup]
  | cons p rest ih =>
    obtain ⟨k0, v0⟩ := p
    by_cases h : k = k0
    · simp [alookup, h]
    · simp [alookup, h, ih]

/-! ### Characterization of `compute_holdings` -/

theorem getD_holdingsStep (qty : List (Int × ℚ)) (t : Txn) (a : Int) :
    getD (holdingsStep qty t) a 0 = getD qty a 0 + txnDelta a t := by
  unfold holdingsStep txnDelta
  by_cases hf1 : truthyId t.from_asset_id <;>
    by_cases hf2 : truthyAmt t.from_amount <;>
      by_cases ht1 : truthyId t.to_asset_id <;>
        by_cases ht2 : truthyAmt t.to_amount <;>
          (simp [hf1, hf2, ht1, ht2, getD_dictAdd]; try ring)

theorem getD_foldl_holdingsStep (rows : List Txn) (init : List (Int × ℚ)) (a : Int) :
    getD (rows.foldl holdingsStep init) a 0 =
      getD init a 0 + (rows.map (txnDelta a)).sum := by
  induction rows generalizing init with
  | nil => simp
  | cons t rest ih =>
    simp only [List.foldl_cons, List.map_cons, List.sum_cons]
    rw [ih, getD_holdingsStep]
    ring

theorem nodup_keys_holdingsStep (qty : List (Int × ℚ)) (t : Txn)
    (h : (qty.map Prod.fst).Nodup) : ((holdingsStep qty t).map Prod.fst).Nodup := by
  unfold holdingsStep dictAdd
  by_cases hf : truthyId t.from_asset_id && truthyAmt t.from_amount <;>
    by_cases ht : truthyId t.to_asset_id && truthyAmt t.to_amount <;>
      simp [hf, ht, nodup_keys_dsetKey, h]

theorem nodup_keys_foldl_holdingsStep (rows : List Txn) (init : List (Int × ℚ))
    (h : (init.map Prod.fst).Nodup) :
    ((rows.foldl holdingsStep init).map Prod.fst).Nodup := by
  induction rows generalizing init with
  | nil => exact h
  | cons t rest ih => exact ih _ (nodup_keys_holdingsStep _ _ h)

/-- Master characterization: looking an asset up in `compute_holdings` yields
its net accumulated quantity when that exceeds the dust threshold in absolute
value, and nothing otherwise. -/
theorem alookup_compute_holdings (u : Int) (txns : List Txn) (aid : Int) :
    alookup (compute_holdings u txns) aid =
      if dust < |netQty u aid txns| then some (netQty u aid txns) else none := by
  have hnd : (((userRows u txns).foldl holdingsStep []).map Prod.fst).Nodup :=
    nodup_keys_foldl_holdingsStep _ _ (by simp)
  have hq := getD_foldl_holdingsStep (userRows u txns) [] aid
  unfold compute_holdings
  rw [alookup_filter _ _ hnd]
  cases h : alookup ((userRows u txns).foldl holdingsStep []) aid with
  | none =>
    have hz : netQty u aid txns = 0 := by
      have h0 : getD ((userRows u txns).foldl holdingsStep []) aid 0 = 0 := by
        simp [getD, h]
      rw [h0] at hq
      simpa [getD, alookup, netQty] using hq.symm
    rw [hz]
    norm_num [dust]
  | some v =>
    have hv : v = netQty u aid txns := by
      have h0 : getD ((userRows u txns).foldl holdingsStep []) aid 0 = v := by
        simp [getD, h]
      rw [h0] at hq
      simpa [getD, alookup, netQty] using hq
    subst hv
    simp [netQty]

/-! ### Equivalence of the spec-side and code-side per-transaction deltas -/

theorem presentDelta_eq_code (o : Option Int) (m : Option ℚ) (aid : Int)
    (h : o ≠ some 0) :
    presentDelta o m aid =
      (if truthyId o ∧ truthyAmt m ∧ aid = o.getD 0 then m.getD 0 else 0) := by
  unfold presentDelta
  rcases o with _ | f
  · simp [truthyId]
  · rcases m with _ | x
    · simp [truthyAmt]
    · have hf : f ≠ 0 := by simpa using h
      by_cases hx : x = 0
      · subst hx
        by_cases ha : f = aid <;> simp [truthyId, truthyAmt, hf, ha]
      · by_cases ha : f = aid
        · subst ha
          simp [truthyId, truthyAmt, hf, hx]
        · have ha' : ¬ aid = f := fun hh => ha hh.symm
          simp [truthyId, truthyAmt, hf, hx, ha, ha']

theorem specDelta_eq_txnDelta (aid : Int) (t : Txn)
    (h1 : t.from_asset_id ≠ some 0) (h2 : t.to_asset_id ≠ some 0) :
    specDelta aid t = txnDelta aid t := by
  unfold specDelta txnDelta
  have negif :
      (if truthyId t.from_asset_id ∧ truthyAmt t.from_amount ∧
          aid = t.from_asset_id.getD 0 then -(t.from_amount.getD 0) else 0) =
      -(if truthyId t.from_asset_id ∧ truthyAmt t.from_amount ∧
          aid = t.from_asset_id.getD 0 then t.from_amount.getD 0 else 0) := by
    split <;> simp
  rw [negif, presentDelta_eq_code _ _ _ h1, presentDelta_eq_code _ _ _ h2]

/-- C3: `compute_holdings` accumulates over exactly the user's trade and
rebalance transactions — subtracting `from_amount` from `from_asset` and
adding `to_amount` to `to_asset` when both members of a pair are present —
and the result omits every asset whose absolute net quantity is at most
`1e-10` while keeping every asset whose absolute net quantity exceeds
`1e-10` (under the proviso that asset ids occurring in the log are
non-zero, so that Python truthiness coincides with presence). -/
theorem compute_holdings_matches_spec (u : Int) (txns : List Txn)
    (h : ∀ t ∈ txns, t.from_asset_id ≠ some 0 ∧ t.to_asset_id ≠ some 0) (aid : Int) :
    alookup (compute_holdings u txns) aid =
      if dust < |specNet u aid txns| then some (specNet u aid txns) else none := by
  have hnet : specNet u aid txns = netQty u aid txns := by
    unfold specNet netQty
    congr 1
    apply List.map_congr_left
    intro t ht
    have hmem : t ∈ txns := List.mem_of_mem_filter ht
    exact specDelta_eq_txnDelta aid t (h t hmem).1 (h t hmem).2
  rw [hnet, alookup_compute_holdings]

/-- Witness for C3: a user-7 trade of 5 units of asset 1 into 10 units of
asset 2, next to an ignored expense and another user's trade, yields exactly
net +10 of asset 2. -/
theorem compute_holdings_matches_spec_witness :
    alookup
      (compute_holdings 7
        [⟨7, none, TransactionType.trade, some 1, some 5, some 2, some 10⟩,
         ⟨7, some 1, TransactionType.expense, some 2, some 3, none, none⟩,
         ⟨8, none, TransactionType.trade, some 2, some 4, some 1, some 1⟩]) 2 =
      some 10 := by
  have h := compute_holdings_matches_spec 7
    [⟨7, none, TransactionType.trade, some 1, some 5, some 2, some 10⟩,
     ⟨7, some 1, TransactionType.expense, some 2, some 3, none, none⟩,
     ⟨8, none, TransactionType.trade, some 2, some 4, some 1, some 1⟩]
    (by decide) 2
  rw [h]
  simp [specNet, userRows, isTradeOrRebalance, specDelta, presentDelta,
    truthyId, truthyAmt, List.filter]
  norm_num [dust]

/-- C4: `compute_holdings` is order-independent — permuting the transaction
log leaves the resulting asset-to-quantity mapping unchanged. -/
theorem compute_holdings_perm_invariant (u : Int) (txns1 txns2 : List Txn)
    (h : txns1.Perm txns2) (aid : Int) :
    alookup (compute_holdings u txns1) aid = alookup (compute_holdings u txns2) aid := by
  have hnet : netQty u aid txns1 = netQty u aid txns2 := by
    unfold netQty userRows
    exact List.Perm.sum_eq ((h.filter _).map _)
  rw [alookup_compute_holdings, alookup_compute_holdings, hnet]

/-- Witness for C4: swapping two trades of user 7 leaves the holdings of
asset 1 unchanged. -/
theorem compute_holdings_perm_invariant_witness :
    alookup
      (compute_holdings 7
        [⟨7, none, TransactionType.trade, some 1, some 5, some 2, some 10⟩,
         ⟨7, none, TransactionType.rebalance, some 2, some 4, some 1, some 2⟩]) 1 =
    alookup
      (compute_holdings 7
        [⟨7, none, TransactionType.rebalance, some 2, some 4, some 1, some 2⟩,
         ⟨7, none, TransactionType.trade, some 1, some 5, some 2, some 10⟩]) 1 :=
  compute_holdings_perm_invariant 7
    [⟨7, none, TransactionType.trade, some 1, some 5, some 2, some 10⟩,
     ⟨7, none, TransactionType.rebalance, some 2, some 4, some 1, some 2⟩]
    [⟨7, none, TransactionType.rebalance, some 2, some 4, some 1, some 2⟩,
     ⟨7, none, TransactionType.trade, some 1, some 5, some 2, some 10⟩]
    (List.Perm.swap _ _ _) 1

/-! ### Characterization of `compute_holdings_by_account` -/

theorem getD_dsetKey_self {β : Type} (l : List (Int × β)) (k : Int) (v d : β) :
    getD (dsetKey l k v) k d = v := by
  simp [getD, alookup_dsetKey_self]

theorem getD_dsetKey_ne {β : Type} (l : List (Int × β)) (k k' : Int) (v d : β)
    (h : k' ≠ k) : getD (dsetKey l k v) k' d = getD l k' d := by
  simp [getD, alookup_dsetKey_ne _ _ _ _ h]

theorem getD_acctAdd (m : List (Int × ℚ)) (o : Option Int) (delta : ℚ) (a : Int) :
    getD (acctAdd m o delta) a 0 =
      getD m a 0 + (if truthyId o ∧ a = o.getD 0 then delta else 0) := by
  unfold acctAdd
  by_cases ho : truthyId o
  · by_cases hd : |delta| ≤ 0
    · have hz : delta = 0 := abs_nonpos_iff.mp hd
      subst hz
      simp [ho, hd]
    · simp [ho, hd, getD_dictAdd]
  · simp [ho]

theorem nodup_keys_acctAdd (m : List (Int × ℚ)) (o : Option Int) (delta : ℚ)
    (h : (m.map Prod.fst).Nodup) : ((acctAdd m o delta).map Prod.fst).Nodup := by
  unfold acctAdd dictAdd
  split
  · exact h
  · exact nodup_keys_dsetKey _ _ _ h

theorem alookup_mem {β : Type} (l : List (Int × β)) (k : Int) (v : β)
    (h : alookup l k = some v) : (k, v) ∈ l := by
  induction l with
  | nil => simp [alookup] at h
  | cons p rest ih =>
    obtain ⟨k0, v0⟩ := p
    by_cases hk : k = k0
    · subst hk
      simp [alookup] at h
      simp [h]
    · simp [alookup, hk] at h
      simp [ih h]

theorem mem_dsetKey {β : Type} (l : List (Int × β)) (k : Int) (v : β) (p : Int × β)
    (h : p ∈ dsetKey l k v) : p = (k, v) ∨ p ∈ l := by
  induction l with
  | nil => simpa [dsetKey] using h
  | cons q rest ih =>
    obtain ⟨k0, v0⟩ := q
    by_cases hk : k = k0
    · subst hk
      simp [dsetKey] at h
      rcases h with h | h
      · exact Or.inl (by simp [h])
      · exact Or.inr (by simp [h])
    · simp [dsetKey, hk] at h
      rcases h with h | h
      · exact Or.inr (by simp [h])
      · rcases ih h with h' | h'
        · exact Or.inl h'
        · exact Or.inr (by simp [h'])

theorem getD_inner_acctStep (outer : List (Int × List (Int × ℚ))) (t : Txn)
    (acct aid : Int) :
    getD (getD (acctStep outer t) acct []) aid 0 =
      getD (getD outer acct []) aid 0 +
        (if t.account_id = some acct then acctTxnDelta aid t else 0) := by
  unfold acctStep acctTxnDelta
  cases ha : t.account_id with
  | none => simp
  | some b =>
    by_cases hb : b = acct
    · subst hb
      rw [if_pos rfl, getD_dsetKey_self]
      cases ht : t.type with
      | trade =>
        by_cases hf1 : truthyId t.from_asset_id <;>
          by_cases hf2 : truthyAmt t.from_amount <;>
            by_cases ht1 : truthyId t.to_asset_id <;>
              by_cases ht2 : truthyAmt t.to_amount <;>
                (simp [hf1, hf2, ht1, ht2, getD_acctAdd, txnDelta]; try ring)
      | rebalance =>
        by_cases hf1 : truthyId t.from_asset_id <;>
          by_cases hf2 : truthyAmt t.from_amount <;>
            by_cases ht1 : truthyId t.to_asset_id <;>
              by_cases ht2 : truthyAmt t.to_amount <;>
                (simp [hf1, hf2, ht1, ht2, getD_acctAdd, txnDelta]; try ring)
      | expense =>
        by_cases hf1 : truthyId t.from_asset_id <;>
          by_cases hf2 : truthyAmt t.from_amount <;>
            (simp [hf1, hf2, getD_acctAdd]; try ring)
      | income =>
        by_cases ht1 : truthyId t.to_asset_id <;>
          by_cases ht2 : truthyAmt t.to_amount <;>
            (simp [ht1, ht2, getD_acctAdd]; try ring)
      | transfer => simp
    · have hb' : acct ≠ b := fun h => hb h.symm
      have hne : ¬ ((some b : Option Int) = some acct) := by
        intro h
        exact hb (Option.some.inj h)
      rw [if_neg hne, getD_dsetKey_ne _ _ _ _ _ hb']
      ring

theorem getD_inner_foldl_acctStep (rows : List Txn) (init : List (Int × List (Int × ℚ)))
    (acct aid : Int) :
    getD (getD (rows.foldl acctStep init) acct []) aid 0 =
      getD (getD init acct []) aid 0 +
        (rows.map (fun t => if t.account_id = some acct then acctTxnDelta aid t else 0)).sum := by
  induction rows generalizing init with
  | nil => simp
  | cons t rest ih =>
    simp only [List.foldl_cons, List.map_cons, List.sum_cons]
    rw [ih, getD_inner_acctStep]
    ring

theorem sum_ite_account (rows : List Txn) (acct aid : Int) :
    (rows.map (fun t => if t.account_id = some acct then acctTxnDelta aid t else 0)).sum =
      ((rows.filter (fun t => t.account_id == some acct)).map (acctTxnDelta aid)).sum := by
  induction rows with
  | nil => simp
  | cons t rest ih =>
    by_cases hp : t.account_id = some acct <;> simp [List.filter_cons, hp, ih]

theorem acctStep_none (init : List (Int × List (Int × ℚ))) (t : Txn)
    (ha : t.account_id = none) : acctStep init t = init := by
  simp [acctStep, ha]

theorem acctStep_some (init : List (Int × List (Int × ℚ))) (t : Txn) (b : Int)
    (ha : t.account_id = some b) :
    ∃ m1, acctStep init t = dsetKey init b m1 := by
  unfold acctStep
  rw [ha]
  exact ⟨_, rfl⟩

theorem alookup_foldl_acctStep_none (rows : List Txn)
    (init : List (Int × List (Int × ℚ))) (acct : Int)
    (h : alookup (rows.foldl acctStep init) acct = none) :
    alookup init acct = none ∧ ∀ t ∈ rows, t.account_id ≠ some acct := by
  induction rows generalizing init with
  | nil => exact ⟨h, by simp⟩
  | cons t rest ih =>
    obtain ⟨h1, h2⟩ := ih (acctStep init t) h
    have hstep : alookup init acct = none ∧ t.account_id ≠ some acct := by
      cases ha : t.account_id with
      | none => exact ⟨by rwa [acctStep_none _ _ ha] at h1, by simp [ha]⟩
      | some b =>
        obtain ⟨m1, hm1⟩ := acctStep_some init t b ha
        rw [hm1] at h1
        by_cases hb : acct = b
        · subst hb
          rw [alookup_dsetKey_self] at h1
          exact absurd h1 (by simp)
        · refine ⟨by rwa [alookup_dsetKey_ne _ _ _ _ hb] at h1, ?_⟩
          intro hc
          exact hb (Option.some.inj hc).symm
    constructor
    · exact hstep.1
    · intro t' ht'
      rcases List.mem_cons.mp ht' with rfl | hmem
      · exact hstep.2
      · exact h2 t' hmem

theorem inner_nodup_acctStep (init : List (Int × List (Int × ℚ))) (t : Txn)
    (h : ∀ p ∈ init, ((p.2 : List (Int × ℚ)).map Prod.fst).Nodup) :
    ∀ p ∈ acctStep init t, (p.2.map Prod.fst).Nodup := by
  intro p hp
  cases ha : t.account_id with
  | none =>
    rw [acctStep_none _ _ ha] at hp
    exact h p hp
  | some b =>
    have hm0 : ((getD init b []).map Prod.fst).Nodup := by
      unfold getD
      cases hh : alookup init b with
      | none => simp
      | some m => simpa using h (b, m) (alookup_mem _ _ _ hh)
    unfold acctStep at hp
    rw [ha] at hp
    dsimp only at hp
    rcases mem_dsetKey _ _ _ _ hp with rfl | hmem
    · dsimp only
      cases ht : t.type <;>
        first
        | exact hm0
        | (by_cases c1 : truthyId t.from_asset_id && truthyAmt t.from_amount <;>
             by_cases c2 : truthyId t.to_asset_id && truthyAmt t.to_amount <;>
               simp [c1, c2, nodup_keys_acctAdd, hm0])
    · exact h p hmem

theorem inner_nodup_foldl_acctStep (rows : List Txn)
    (init : List (Int × List (Int × ℚ)))
    (h : ∀ p ∈ init, ((p.2 : List (Int × ℚ)).map Prod.fst).Nodup) :
    ∀ p ∈ rows.foldl acctStep init, (p.2.map Prod.fst).Nodup := by
  induction rows generalizing init with
  | nil => exact h
  | cons t rest ih => exact ih _ (inner_nodup_acctStep _ _ h)

theorem outer_nodup_acctStep (init : List (Int × List (Int × ℚ))) (t : Txn)
    (h : (init.map Prod.fst).Nodup) : ((acctStep init t).map Prod.fst).Nodup := by
  cases ha : t.account_id with
  | none => rwa [acctStep_none _ _ ha]
  | some b =>
    obtain ⟨m1, hm1⟩ := acctStep_some init t b ha
    rw [hm1]
    exact nodup_keys_dsetKey _ _ _ h

theorem outer_nodup_foldl_acctStep (rows : List Txn)
    (init : List (Int × List (Int × ℚ))) (h : (init.map Prod.fst).Nodup) :
    (((rows.foldl acctStep init)).map Prod.fst).Nodup := by
  induction rows generalizing init with
  | nil => exact h
  | cons t rest ih => exact ih _ (outer_nodup_acctStep _ _ h)

theorem alookup_map_filterVal (l : List (Int × List (Int × ℚ)))
    (pq : Int × ℚ → Bool) (k : Int) :
    alookup (l.map (fun p => (p.1, p.2.filter pq))) k =
      (alookup l k).map (fun m => m.filter pq) := by
  induction l with
  | nil => simp [alookup]
  | cons p rest ih =>
    obtain ⟨k0, v0⟩ := p
    by_cases h : k = k0
    · simp [alookup, h]
    · simp [alookup, h, ih]

/-- Master characterization of `compute_holdings_by_account`: the nested
lookup of an (account, asset) pair yields the code-side net quantity exactly
when it exceeds the dust threshold in absolute value. -/
theorem alookup2_compute_holdings_by_account (u : Int) (txns : List Txn)
    (acct aid : Int) :
    alookup2 (compute_holdings_by_account u txns) acct aid =
      if dust < |netAcctQty u acct aid txns| then some (netAcctQty u acct aid txns)
      else none := by
  have houter : (((acctRows u txns).foldl acctStep []).map Prod.fst).Nodup :=
    outer_nodup_foldl_acctStep _ _ (by simp)
  have hinner : ∀ p ∈ (acctRows u txns).foldl acctStep [],
      ((p.2 : List (Int × ℚ)).map Prod.fst).Nodup :=
    inner_nodup_foldl_acctStep _ _ (by simp)
  unfold compute_holdings_by_account alookup2
  have hmapkeys :
      ((((acctRows u txns).foldl acctStep []).map
          (fun p => (p.1, p.2.filter (fun q => decide (dust < |q.2|))))).map
        Prod.fst).Nodup := by
    simpa [List.map_map, Function.comp] using houter
  rw [alookup_filter _ _ hmapkeys, alookup_map_filterVal]
  cases hA : alookup ((acctRows u txns).foldl acctStep []) acct with
  | none =>
    obtain ⟨-, hall⟩ := alookup_foldl_acctStep_none _ _ _ hA
    have hz : netAcctQty u acct aid txns = 0 := by
      unfold netAcctQty
      have he : (acctRows u txns).filter (fun t => t.account_id == some acct) = [] := by
        rw [List.filter_eq_nil_iff]
        intro t ht
        simpa using hall t ht
      rw [he]
      simp
    rw [hz]
    norm_num [dust]
  | some m =>
    have hmnd : (m.map Prod.fst).Nodup := hinner (acct, m) (alookup_mem _ _ _ hA)
    have hnet : getD m aid 0 = netAcctQty u acct aid txns := by
      have hfold := getD_inner_foldl_acctStep (acctRows u txns) [] acct aid
      have hgB : getD ((acctRows u txns).foldl acctStep []) acct [] = m := by
        simp [getD, hA]
      rw [hgB] at hfold
      rw [hfold]
      simp only [getD, alookup, Option.getD_none, zero_add]
      rw [sum_ite_account]
      rfl
    simp only [Option.map_some']
    have key :
        (Option.bind
          (if !(m.filter (fun q => decide (dust < |q.2|))).isEmpty then
              some (m.filter (fun q => decide (dust < |q.2|)))
            else none)
          (fun m' => alookup m' aid)) =
        alookup (m.filter (fun q => decide (dust < |q.2|))) aid := by
      by_cases hE : (m.filter (fun q => decide (dust < |q.2|))).isEmpty
      · have h0 : m.filter (fun q => decide (dust < |q.2|)) = [] :=
          List.isEmpty_iff.mp hE
        simp [hE, h0, alookup]
      · simp [hE]
    rw [Option.some_bind, key, alookup_filter _ _ hmnd]
    cases hm : alookup m aid with
    | none =>
      have : netAcctQty u acct aid txns = 0 := by
        rw [← hnet]
        simp [getD, hm]
      rw [this]
      norm_num [dust]
    | some v =>
      have hv : v = netAcctQty u acct aid txns := by
        rw [← hnet]
        simp [getD, hm]
      subst hv
      simp

theorem acctSpecDelta_eq_acctTxnDelta (aid : Int) (t : Txn)
    (h1 : t.from_asset_id ≠ some 0) (h2 : t.to_asset_id ≠ some 0) :
    acctSpecDelta aid t = acctTxnDelta aid t := by
  unfold acctSpecDelta acctTxnDelta
  cases t.type with
  | trade => exact specDelta_eq_txnDelta aid t h1 h2
  | rebalance => exact specDelta_eq_txnDelta aid t h1 h2
  | expense =>
    dsimp only
    rw [presentDelta_eq_code _ _ _ h1]
    split <;> simp
  | income =>
    dsimp only
    rw [presentDelta_eq_code _ _ _ h2]
  | transfer => rfl

/-- C5: `compute_holdings_by_account` skips every transaction with no account
and accumulates per account by the spec's per-kind rule: trade/rebalance use
the from/to rule, an expense subtracts `from_amount` from `from_asset`, an
income adds `to_amount` to `to_asset` (stated for logs whose asset ids are
non-zero, so Python truthiness coincides with presence). -/
theorem compute_holdings_by_account_matches_spec (u : Int) (txns : List Txn)
    (h : ∀ t ∈ txns, t.from_asset_id ≠ some 0 ∧ t.to_asset_id ≠ some 0)
    (acct aid : Int) :
    alookup2 (compute_holdings_by_account u txns) acct aid =
      if dust < |acctSpecNet u acct aid txns| then some (acctSpecNet u acct aid txns)
      else none := by
  have hnet : acctSpecNet u acct aid txns = netAcctQty u acct aid txns := by
    unfold acctSpecNet netAcctQty acctUserRows acctRows
    rw [List.filter_filter]
    have hlist :
        txns.filter (fun t =>
            t.user_id == u && isAcctKind t.type && (t.account_id == some acct)) =
          txns.filter (fun t =>
            (t.account_id == some acct) && (t.user_id == u && isAcctKind t.type)) := by
      apply List.filter_congr
      intro t _
      rw [Bool.and_comm]
    rw [hlist]
    congr 1
    apply List.map_congr_left
    intro t ht
    have hmem : t ∈ txns := List.mem_of_mem_filter ht
    exact acctSpecDelta_eq_acctTxnDelta aid t (h t hmem).1 (h t hmem).2
  rw [hnet, alookup2_compute_holdings_by_account]

/-- Witness for C5, realizing the spec's scenario: an expense of 50 in asset 2
on account 1 with no prior holdings yields net quantity −50 of asset 2 for
that account. -/
theorem compute_holdings_by_account_matches_spec_witness :
    alookup2
      (compute_holdings_by_account 7
        [⟨7, some 1, TransactionType.expense, some 2, some 50, none, none⟩]) 1 2 =
      some (-50) := by
  have h := compute_holdings_by_account_matches_spec 7
    [⟨7, some 1, TransactionType.expense, some 2, some 50, none, none⟩]
    (by decide) 1 2
  rw [h]
  simp [acctSpecNet, acctUserRows, isAcctKind, acctSpecDelta, presentDelta,
    List.filter]
  norm_num [dust]

/-- C6: the mapping returned by `compute_holdings_by_account` contains no
account whose asset map is empty after dust filtering, and every asset entry
it contains has absolute net quantity strictly greater than `1e-10`. -/
theorem compute_holdings_by_account_no_empty (u : Int) (txns : List Txn)
    (p : Int × List (Int × ℚ)) (hp : p ∈ compute_holdings_by_account u txns) :
    p.2 ≠ [] ∧ ∀ q ∈ p.2, dust < |q.2| := by
  unfold compute_holdings_by_account at hp
  rw [List.mem_filter] at hp
  obtain ⟨hmem, hne⟩ := hp
  constructor
  · intro h0
    rw [h0] at hne
    simp at hne
  · obtain ⟨p0, hp0, rfl⟩ := List.mem_map.mp hmem
    intro q hq
    have hfq := (List.mem_filter.mp hq).2
    simpa using hfq

/-- Witness for C6: the single-expense log yields account 1 with the non-dust
entry (2, −50). -/
theorem compute_holdings_by_account_no_empty_witness :
    ((1 : Int), [((2 : Int), (-50 : ℚ))]).2 ≠ [] ∧
      ∀ q ∈ ((1 : Int), [((2 : Int), (-50 : ℚ))]).2, dust < |q.2| := by
  apply compute_holdings_by_account_no_empty 7
    [⟨7, some 1, TransactionType.expense, some 2, some 50, none, none⟩]
  simp [compute_holdings_by_account, acctRows, isAcctKind, acctStep, acctAdd,
    dictAdd, dsetKey, getD, alookup, truthyId, truthyAmt, List.filter, List.foldl]
  norm_num [dust]

/-! ### The rebalance planner -/

/-- C8: in the greedy pairing loop of `suggest_rebalance`, if the current
source asset's price is missing or non-positive, the loop terminates
immediately: no leg is emitted for that pair and no further legs are produced
for any remaining sources or destinations. -/
theorem pairLoop_breaks_on_bad_price (pm : List (Int × ℚ)) (fa : Int) (fv : ℚ)
    (ss : List (Int × ℚ)) (ta : Int) (tv : ℚ) (ds : List (Int × ℚ))
    (h : alookup pm fa = none ∨ ∃ p, alookup pm fa = some p ∧ p ≤ 0) :
    pairLoop pm ((fa, fv) :: ss) ((ta, tv) :: ds) = [] := by
  rcases h with h | ⟨p, hp, hple⟩
  · rw [pairLoop, h]
  · rw [pairLoop, hp]
    simp [hple]

/-- Witness for C8: with an empty price map the loop emits nothing even though
a source and a destination remain. -/
theorem pairLoop_breaks_on_bad_price_witness :
    pairLoop [] [((1 : Int), (1 : ℚ))] [((2 : Int), (1 : ℚ))] = [] :=
  pairLoop_breaks_on_bad_price [] 1 1 [] 2 1 [] (Or.inl rfl)

/-- C2: for a portfolio with at least one allocation whose valuation is not
positive, `suggest_rebalance` returns total 0, empty current weights, the
target weights as loaded from the allocations, and no legs. -/
theorem suggest_rebalance_zero_total (allocations : List Alloc)
    (prices : List PriceRow) (txns : List Txn) (pid : Int) (cur : String)
    (uid : Int) (h1 : allocsFor allocations pid ≠ [])
    (h2 : (valuesPair allocations prices txns pid cur uid).1 ≤ 0) :
    suggest_rebalance allocations prices txns pid cur uid =
      ⟨0, [], targetWeightsOf allocations pid, []⟩ := by
  unfold suggest_rebalance
  dsimp only
  rw [if_neg (by simpa using h1), if_pos h2]

/-- Witness for C2: one allocation, no prices, no transactions — the result is
the zero total, no weights, the loaded target weights, and no legs. -/
theorem suggest_rebalance_zero_total_witness :
    suggest_rebalance [⟨1, 1, 1⟩] [] [] 1 "USD" 7 =
      ⟨0, [], [((1 : Int), (1 : ℚ))], []⟩ := by
  rw [suggest_rebalance_zero_total [⟨1, 1, 1⟩] [] [] 1 "USD" 7
      (by simp [allocsFor, List.filter])
      (by simp [valuesPair, compute_values, assetIdsOf, targetWeightsOf,
        allocsFor, latest_price_map, alookup, dsetKey, List.filter])]
  simp [targetWeightsOf, allocsFor, dsetKey, List.filter]

/-- C1 counterexample: with two allocated assets (weights 1/2 each), a price
only for asset 1 and a holding of one unit of asset 1, the valuation is
positive, yet asset 2 — allocated but unpriced — is PRESENT in
`current_weights` with weight 0 (the claim says it is absent). -/
theorem current_weights_zero_entry_counterexample :
    alookup
      (suggest_rebalance
        [⟨1, 1, (1 : ℚ)/2⟩, ⟨1, 2, (1 : ℚ)/2⟩]
        [⟨1, 0, 10, "USD"⟩]
        [⟨7, none, TransactionType.trade, none, none, some 1, some 1⟩]
        1 "USD" 7).current_weights 2 = some 0 := by
  simp [suggest_rebalance, allocsFor, targetWeightsOf, assetIdsOf, valuesPair,
    compute_values, latest_price_map, priceLE, compute_holdings, userRows,
    holdingsStep, dictAdd, dsetKey, getD, alookup, truthyId, truthyAmt,
    isTradeOrRebalance, List.filter, List.foldl]
  norm_num [alookup, getD, dust]

/-- C1 amended: when the valuation is positive, `current_weights` maps EVERY
allocated asset `aid` to `values.get(aid, 0.0) / total_value` — so an
allocated asset with a price gets `value/total`, an allocated asset with no
price/value gets an entry with weight 0 rather than being absent — and
non-allocated assets are absent. -/
theorem suggest_rebalance_current_weights (allocations : List Alloc)
    (prices : List PriceRow) (txns : List Txn) (pid : Int) (cur : String)
    (uid : Int) (h1 : allocsFor allocations pid ≠ [])
    (h2 : 0 < (valuesPair allocations prices txns pid cur uid).1) (aid : Int) :
    alookup (suggest_rebalance allocations prices txns pid cur uid).current_weights aid =
      if aid ∈ assetIdsOf allocations pid then
        some (getD (valuesPair allocations prices txns pid cur uid).2 aid 0 /
          (valuesPair allocations prices txns pid cur uid).1)
      else none := by
  unfold suggest_rebalance
  dsimp only
  rw [if_neg (by simpa using h1), if_neg (not_le.mpr h2)]
  exact alookup_map_graph _ _ _

/-- Witness for the amended C1 at the counterexample's input: the priced,
held asset 1 carries its full weight 1. -/
theorem suggest_rebalance_current_weights_witness :
    alookup
      (suggest_rebalance
        [⟨1, 1, (1 : ℚ)/2⟩, ⟨1, 2, (1 : ℚ)/2⟩]
        [⟨1, 0, 10, "USD"⟩]
        [⟨7, none, TransactionType.trade, none, none, some 1, some 1⟩]
        1 "USD" 7).current_weights 1 = some 1 := by
  have h := suggest_rebalance_current_weights
    [⟨1, 1, (1 : ℚ)/2⟩, ⟨1, 2, (1 : ℚ)/2⟩]
    [⟨1, 0, 10, "USD"⟩]
    [⟨7, none, TransactionType.trade, none, none, some 1, some 1⟩]
    1 "USD" 7
    (by simp [allocsFor, List.filter])
    (by
      simp [valuesPair, compute_values, assetIdsOf, targetWeightsOf, allocsFor,
        latest_price_map, priceLE, compute_holdings, userRows, holdingsStep,
        dictAdd, dsetKey, getD, alookup, truthyId, truthyAmt,
        isTradeOrRebalance, List.filter, List.foldl]
      norm_num [alookup, getD, dust])
    1
  rw [h]
  simp [valuesPair, compute_values, assetIdsOf, targetWeightsOf, allocsFor,
    latest_price_map, priceLE, compute_holdings, userRows, holdingsStep,
    dictAdd, dsetKey, getD, alookup, truthyId, truthyAmt, isTradeOrRebalance,
    List.filter, List.foldl]
  norm_num [alookup, getD, dust]

theorem sum_snd_nonneg (ss : List (Int × ℚ)) (h : ∀ q ∈ ss, 0 ≤ q.2) :
    0 ≤ (ss.map Prod.snd).sum := by
  apply List.sum_nonneg
  intro x hx
  obtain ⟨q, hq, rfl⟩ := List.mem_map.mp hx
  exact h q hq

theorem pairLoop_moveValue_le_aux (pm : List (Int × ℚ)) (n : ℕ) :
    ∀ (ss ds : List (Int × ℚ)), ss.length + ds.length ≤ n →
      (∀ q ∈ ss, 0 ≤ q.2) →
      legsMoveValue pm (pairLoop pm ss ds) ≤ (ss.map Prod.snd).sum := by
  induction n with
  | zero =>
    intro ss ds hlen h
    cases ss with
    | nil => simp [pairLoop, legsMoveValue]
    | cons s ss' => simp at hlen
  | succ n ih =>
    intro ss ds hlen h
    cases ss with
    | nil => simp [pairLoop, legsMoveValue]
    | cons s ss' =>
      obtain ⟨fa, fv⟩ := s
      cases ds with
      | nil =>
        rw [pairLoop]
        simpa [legsMoveValue] using sum_snd_nonneg _ h
      | cons d ds' =>
        obtain ⟨ta, tv⟩ := d
        rw [pairLoop]
        cases hp : alookup pm fa with
        | none =>
          simpa [legsMoveValue] using sum_snd_nonneg _ h
        | some p =>
          by_cases hple : p ≤ 0
          · simp only [if_pos hple]
            simpa [legsMoveValue] using sum_snd_nonneg _ h
          · simp only [if_neg hple]
            have hppos : 0 < p := lt_of_not_le hple
            have heps : (0:ℚ) ≤ epsilon := by norm_num [epsilon]
            have hfv : 0 ≤ fv := h (fa, fv) (by simp)
            have htail : ∀ q ∈ ss', 0 ≤ q.2 := fun q hq => h q (by simp [hq])
            have hmv_le : min fv tv ≤ fv := min_le_left _ _
            have hlen2 :
                (if fv - min fv tv ≤ epsilon then ss'
                  else (fa, fv - min fv tv) :: ss').length +
                (if tv - min fv tv ≤ epsilon then ds'
                  else (ta, tv - min fv tv) :: ds').length ≤ n := by
              simp only [List.length_cons] at hlen
              rcases le_total fv tv with h' | h'
              · rw [min_eq_left h', sub_self, if_pos heps]
                split <;> (try simp only [List.length_cons]) <;> omega
              · rw [min_eq_right h', sub_self, if_pos heps]
                split <;> (try simp only [List.length_cons]) <;> omega
            have hinv : ∀ q ∈ (if fv - min fv tv ≤ epsilon then ss'
                else (fa, fv - min fv tv) :: ss'), 0 ≤ q.2 := by
              split
              · exact htail
              · intro q hq
                rcases List.mem_cons.mp hq with rfl | hq'
                · simp only []
                  exact sub_nonneg.mpr hmv_le
                · exact htail q hq'
            have hrec := ih _ _ hlen2 hinv
            unfold legsMoveValue at hrec ⊢
            simp only [List.map_cons, List.sum_cons]
            have hprice : getD pm fa 0 = p := by simp [getD, hp]
            rw [hprice, div_mul_cancel₀ _ (ne_of_gt hppos)]
            by_cases hpop : fv - min fv tv ≤ epsilon
            · rw [if_pos hpop] at hrec ⊢
              linarith
            · rw [if_neg hpop] at hrec ⊢
              simp only [List.map_cons, List.sum_cons] at hrec
              linarith

theorem sourcesOf_snd_gt_eps (allocations : List Alloc) (prices : List PriceRow)
    (txns : List Txn) (pid : Int) (cur : String) (uid : Int) :
    ∀ q ∈ sourcesOf allocations prices txns pid cur uid, epsilon < q.2 := by
  intro q hq
  unfold sourcesOf at hq
  obtain ⟨p, hp, rfl⟩ := List.mem_map.mp hq
  have hlt : p.2 < -epsilon := by simpa using (List.mem_filter.mp hp).2
  simp only []
  linarith

theorem destsOf_snd_gt_eps (allocations : List Alloc) (prices : List PriceRow)
    (txns : List Txn) (pid : Int) (cur : String) (uid : Int) :
    ∀ q ∈ destsOf allocations prices txns pid cur uid, epsilon < q.2 := by
  intro q hq
  unfold destsOf at hq
  simpa using (List.mem_filter.mp hq).2

theorem sources_dests_disjoint (allocations : List Alloc) (prices : List PriceRow)
    (txns : List Txn) (pid : Int) (cur : String) (uid : Int) :
    ∀ a, a ∈ (sourcesOf allocations prices txns pid cur uid).map Prod.fst →
      a ∉ (destsOf allocations prices txns pid cur uid).map Prod.fst := by
  intro a hs hd
  unfold sourcesOf at hs
  unfold destsOf at hd
  obtain ⟨q, hq, hqa⟩ := List.mem_map.mp hs
  obtain ⟨p, hp, rfl⟩ := List.mem_map.mp hq
  obtain ⟨r, hr, hra⟩ := List.mem_map.mp hd
  have hplt : p.2 < -epsilon := by simpa using (List.mem_filter.mp hp).2
  have hrgt : epsilon < r.2 := by simpa using (List.mem_filter.mp hr).2
  have hpd : p ∈ deltasOf allocations prices txns pid cur uid :=
    List.mem_of_mem_filter hp
  have hrd : r ∈ deltasOf allocations prices txns pid cur uid :=
    List.mem_of_mem_filter hr
  unfold deltasOf at hpd hrd
  obtain ⟨aidp, -, hpe⟩ := List.mem_map.mp hpd
  obtain ⟨aidr, -, hre⟩ := List.mem_map.mp hrd
  have hpa : a = p.1 := by simpa using hqa.symm
  have hfp : p.2 =
      getD (targetWeightsOf allocations pid) p.1 0 *
          (valuesPair allocations prices txns pid cur uid).1 -
        getD (valuesPair allocations prices txns pid cur uid).2 p.1 0 := by
    rw [← hpe]
  have hfr : r.2 =
      getD (targetWeightsOf allocations pid) r.1 0 *
          (valuesPair allocations prices txns pid cur uid).1 -
        getD (valuesPair allocations prices txns pid cur uid).2 r.1 0 := by
    rw [← hre]
  have hra' : r.1 = p.1 := by rw [hra, hpa]
  rw [hfp] at hplt
  rw [hfr, hra'] at hrgt
  have heps : (0:ℚ) < epsilon := by norm_num [epsilon]
  linarith

/-- C9: in every run of `suggest_rebalance`, the total value moved by the
emitted legs (`quantity_from` times the source asset's price, summed over
legs) is at most the sum of `|delta_value|` over all source assets (those
with `delta_value < -1e-6`). -/
theorem suggest_rebalance_value_conserved (allocations : List Alloc)
    (prices : List PriceRow) (txns : List Txn) (pid : Int) (cur : String)
    (uid : Int) :
    legsMoveValue (latest_price_map prices cur)
        (suggest_rebalance allocations prices txns pid cur uid).legs ≤
      (((deltasOf allocations prices txns pid cur uid).filter
          (fun p => decide (p.2 < -epsilon))).map (fun p => |p.2|)).sum := by
  have heps : (0:ℚ) < epsilon := by norm_num [epsilon]
  have habs :
      (((deltasOf allocations prices txns pid cur uid).filter
          (fun p => decide (p.2 < -epsilon))).map (fun p => |p.2|)).sum =
        ((sourcesOf allocations prices txns pid cur uid).map Prod.snd).sum := by
    unfold sourcesOf
    rw [List.map_map]
    congr 1
    apply List.map_congr_left
    intro p hp
    have hlt : p.2 < -epsilon := by simpa using (List.mem_filter.mp hp).2
    have : p.2 < 0 := by linarith
    simp [abs_of_neg this]
  rw [habs]
  have hnonneg : (0:ℚ) ≤
      ((sourcesOf allocations prices txns pid cur uid).map Prod.snd).sum := by
    apply sum_snd_nonneg
    intro q hq
    have := sourcesOf_snd_gt_eps allocations prices txns pid cur uid q hq
    linarith
  unfold suggest_rebalance
  dsimp only
  by_cases hA : (allocsFor allocations pid).isEmpty
  · rw [if_pos hA]
    simpa [legsMoveValue] using hnonneg
  · rw [if_neg hA]
    by_cases hT : (valuesPair allocations prices txns pid cur uid).1 ≤ 0
    · rw [if_pos hT]
      simpa [legsMoveValue] using hnonneg
    · rw [if_neg hT]
      dsimp only
      have hsortnn : ∀ q ∈ (sourcesOf allocations prices txns pid cur uid).mergeSort
          valueDesc, 0 ≤ q.2 := by
        intro q hq
        have hmem : q ∈ sourcesOf allocations prices txns pid cur uid :=
          List.mem_mergeSort.mp hq
        have := sourcesOf_snd_gt_eps allocations prices txns pid cur uid q hmem
        linarith
      have hb := pairLoop_moveValue_le_aux (latest_price_map prices cur)
        (((sourcesOf allocations prices txns pid cur uid).mergeSort valueDesc).length +
          ((destsOf allocations prices txns pid cur uid).mergeSort valueDesc).length)
        ((sourcesOf allocations prices txns pid cur uid).mergeSort valueDesc)
        ((destsOf allocations prices txns pid cur uid).mergeSort valueDesc)
        le_rfl hsortnn
      have hsum :
          (((sourcesOf allocations prices txns pid cur uid).mergeSort valueDesc).map
            Prod.snd).sum =
          ((sourcesOf allocations prices txns pid cur uid).map Prod.snd).sum :=
        List.Perm.sum_eq ((List.mergeSort_perm _ _).map _)
      rw [hsum] at hb
      exact hb

theorem pairLoop_legs_pos_aux (pm : List (Int × ℚ)) (n : ℕ) :
    ∀ (ss ds : List (Int × ℚ)),
      ss.length + ds.length ≤ n →
      (∀ q ∈ ss, epsilon < q.2) →
      (∀ q ∈ ds, epsilon < q.2) →
      (∀ a, a ∈ ss.map Prod.fst → a ∉ ds.map Prod.fst) →
      ∀ leg ∈ pairLoop pm ss ds, 0 < leg.2.2 ∧ leg.1 ≠ leg.2.1 := by
  induction n with
  | zero =>
    intro ss ds hlen hs hd hdisj leg hleg
    cases ss with
    | nil => simp [pairLoop] at hleg
    | cons s ss' => simp at hlen
  | succ n ih =>
    intro ss ds hlen hs hd hdisj leg hleg
    cases ss with
    | nil => simp [pairLoop] at hleg
    | cons s ss' =>
      obtain ⟨fa, fv⟩ := s
      cases ds with
      | nil => simp [pairLoop] at hleg
      | cons d ds' =>
        obtain ⟨ta, tv⟩ := d
        rw [pairLoop] at hleg
        cases hp : alookup pm fa with
        | none => rw [hp] at hleg; simp at hleg
        | some p =>
          rw [hp] at hleg
          dsimp only at hleg
          by_cases hple : p ≤ 0
          · rw [if_pos hple] at hleg
            simp at hleg
          · rw [if_neg hple] at hleg
            have hppos : 0 < p := lt_of_not_le hple
            have heps : (0:ℚ) < epsilon := by norm_num [epsilon]
            have hfv : epsilon < fv := hs (fa, fv) (by simp)
            have htv : epsilon < tv := hd (ta, tv) (by simp)
            rcases List.mem_cons.mp hleg with rfl | htail
            · constructor
              · have hmv : 0 < min fv tv := lt_min (by linarith) (by linarith)
                exact div_pos hmv hppos
              · intro hcontra
                have hfa_ta : fa = ta := hcontra
                refine hdisj fa (by simp) ?_
                simp [hfa_ta]
            · have hstail : ∀ q ∈ ss', epsilon < q.2 := fun q hq => hs q (by simp [hq])
              have hdtail : ∀ q ∈ ds', epsilon < q.2 := fun q hq => hd q (by simp [hq])
              have heps' : (0:ℚ) ≤ epsilon := le_of_lt heps
              have hlen2 :
                  (if fv - min fv tv ≤ epsilon then ss'
                    else (fa, fv - min fv tv) :: ss').length +
                  (if tv - min fv tv ≤ epsilon then ds'
                    else (ta, tv - min fv tv) :: ds').length ≤ n := by
                simp only [List.length_cons] at hlen
                rcases le_total fv tv with h' | h'
                · rw [min_eq_left h', sub_self, if_pos heps']
                  split <;> (try simp only [List.length_cons]) <;> omega
                · rw [min_eq_right h', sub_self, if_pos heps']
                  split <;> (try simp only [List.length_cons]) <;> omega
              have hs2 : ∀ q ∈ (if fv - min fv tv ≤ epsilon then ss'
                  else (fa, fv - min fv tv) :: ss'), epsilon < q.2 := by
                by_cases hcond : fv - min fv tv ≤ epsilon
                · rw [if_pos hcond]
                  exact hstail
                · rw [if_neg hcond]
                  intro q hq
                  rcases List.mem_cons.mp hq with rfl | hq'
                  · simpa using lt_of_not_le hcond
                  · exact hstail q hq'
              have hd2 : ∀ q ∈ (if tv - min fv tv ≤ epsilon then ds'
                  else (ta, tv - min fv tv) :: ds'), epsilon < q.2 := by
                by_cases hcond : tv - min fv tv ≤ epsilon
                · rw [if_pos hcond]
                  exact hdtail
                · rw [if_neg hcond]
                  intro q hq
                  rcases List.mem_cons.mp hq with rfl | hq'
                  · simpa using lt_of_not_le hcond
                  · exact hdtail q hq'
              have hsub_s : ∀ a, a ∈ ((if fv - min fv tv ≤ epsilon then ss'
                  else (fa, fv - min fv tv) :: ss').map Prod.fst) →
                  a ∈ (((fa, fv) :: ss').map Prod.fst) := by
                split <;> intro a ha <;> simp at ha ⊢ <;> tauto
              have hsub_d : ∀ a, a ∈ ((if tv - min fv tv ≤ epsilon then ds'
                  else (ta, tv - min fv tv) :: ds').map Prod.fst) →
                  a ∈ (((ta, tv) :: ds').map Prod.fst) := by
                split <;> intro a ha <;> simp at ha ⊢ <;> tauto
              have hdisj2 : ∀ a, a ∈ ((if fv - min fv tv ≤ epsilon then ss'
                  else (fa, fv - min fv tv) :: ss').map Prod.fst) →
                  a ∉ ((if tv - min fv tv ≤ epsilon then ds'
                  else (ta, tv - min fv tv) :: ds').map Prod.fst) :=
                fun a ha hb => hdisj a (hsub_s a ha) (hsub_d a hb)
              exact ih _ _ hlen2 hs2 hd2 hdisj2 leg htail

/-- C10: every leg emitted by `suggest_rebalance` moves a strictly positive
quantity and goes between two distinct assets, because sources and
destinations are disjoint and each pairing moves the minimum of two
remainders that exceed `1e-6`, divided by a price checked to be positive. -/
theorem suggest_rebalance_legs_wellformed (allocations : List Alloc)
    (prices : List PriceRow) (txns : List Txn) (pid : Int) (cur : String)
    (uid : Int) :
    ∀ leg ∈ (suggest_rebalance allocations prices txns pid cur uid).legs,
      0 < leg.2.2 ∧ leg.1 ≠ leg.2.1 := by
  intro leg hleg
  unfold suggest_rebalance at hleg
  dsimp only at hleg
  by_cases hA : (allocsFor allocations pid).isEmpty
  · rw [if_pos hA] at hleg
    simp at hleg
  · rw [if_neg hA] at hleg
    by_cases hT : (valuesPair allocations prices txns pid cur uid).1 ≤ 0
    · rw [if_pos hT] at hleg
      simp at hleg
    · rw [if_neg hT] at hleg
      dsimp only at hleg
      refine pairLoop_legs_pos_aux (latest_price_map prices cur) _ _ _ le_rfl
        ?_ ?_ ?_ leg hleg
      · intro q hq
        exact sourcesOf_snd_gt_eps allocations prices txns pid cur uid q
          (List.mem_mergeSort.mp hq)
      · intro q hq
        exact destsOf_snd_gt_eps allocations prices txns pid cur uid q
          (List.mem_mergeSort.mp hq)
      · intro a ha hb
        have hperm_s : List.Perm
            (((sourcesOf allocations prices txns pid cur uid).mergeSort
              valueDesc).map Prod.fst)
            ((sourcesOf allocations prices txns pid cur uid).map Prod.fst) :=
          (List.mergeSort_perm _ _).map _
        have hperm_d : List.Perm
            (((destsOf allocations prices txns pid cur uid).mergeSort
              valueDesc).map Prod.fst)
            ((destsOf allocations prices txns pid cur uid).map Prod.fst) :=
          (List.mergeSort_perm _ _).map _
        exact sources_dests_disjoint allocations prices txns pid cur uid a
          (hperm_s.mem_iff.mp ha) (hperm_d.mem_iff.mp hb)

/-- Witness for C10, realizing the spec's scenario: targets 0.6/0.4 with
values 800/200 produce the single leg (asset 1, asset 2, quantity 20), which
is positive and moves between distinct assets. -/
theorem suggest_rebalance_legs_wellformed_witness :
    0 < ((1 : Int), (2 : Int), (20 : ℚ)).2.2 ∧
      ((1 : Int), (2 : Int), (20 : ℚ)).1 ≠ ((1 : Int), (2 : Int), (20 : ℚ)).2.1 := by
  apply suggest_rebalance_legs_wellformed
    [⟨1, 1, (3 : ℚ)/5⟩, ⟨1, 2, (2 : ℚ)/5⟩]
    [⟨1, 0, 10, "USD"⟩, ⟨2, 0, 10, "USD"⟩]
    [⟨7, none, TransactionType.trade, none, none, some 1, some 80⟩,
     ⟨7, none, TransactionType.trade, none, none, some 2, some 20⟩]
    1 "USD" 7
  have hm : List.mergeSort
      [(⟨1, 0, 10, "USD"⟩ : PriceRow), ⟨2, 0, 10, "USD"⟩] priceLE =
      [⟨1, 0, 10, "USD"⟩, ⟨2, 0, 10, "USD"⟩] :=
    List.mergeSort_of_sorted (by decide)
  simp [suggest_rebalance, allocsFor, targetWeightsOf, assetIdsOf, valuesPair,
    compute_values, latest_price_map, priceLE, compute_holdings, userRows,
    holdingsStep, dictAdd, dsetKey, getD, alookup, truthyId, truthyAmt,
    isTradeOrRebalance, sourcesOf, destsOf, deltasOf, valueDesc, hm,
    List.filter, List.foldl]
  norm_num [alookup, getD, dust, epsilon, pairLoop]

/-! ### The price index -/

theorem priceLE_trans (a b c : PriceRow) (hab : priceLE a b) (hbc : priceLE b c) :
    priceLE a c := by
  simp only [priceLE, Bool.or_eq_true, Bool.and_eq_true, decide_eq_true_eq,
    beq_iff_eq] at hab hbc ⊢
  omega

theorem priceLE_total (a b : PriceRow) : priceLE a b || priceLE b a := by
  simp only [priceLE, Bool.or_eq_true, Bool.and_eq_true, decide_eq_true_eq,
    beq_iff_eq]
  omega

/-- The fold of `_latest_price_map` keeps the first occurrence per asset:
its lookup is the lookup in the accumulator, or else the first matching row. -/
theorem alookup_latest_fold (rows : List PriceRow) (acc : List (Int × ℚ)) (a : Int) :
    alookup
      (rows.foldl
        (fun latest r =>
          if (alookup latest r.asset_id).isNone then dsetKey latest r.asset_id r.price
          else latest)
        acc) a =
      (match alookup acc a with
       | some v => some v
       | none => (rows.find? (fun r => r.asset_id == a)).map PriceRow.price) := by
  induction rows generalizing acc with
  | nil => cases h : alookup acc a <;> simp [h]
  | cons r rows ih =>
    simp only [List.foldl_cons]
    rw [ih]
    by_cases hra : r.asset_id = a
    · cases hacc : alookup acc a with
      | some v =>
        have : (alookup acc r.asset_id).isNone = false := by
          rw [hra, hacc]
          rfl
        simp [this, hacc]
      | none =>
        have hcond : (alookup acc r.asset_id).isNone = true := by
          rw [hra, hacc]
          rfl
        rw [if_pos hcond]
        have hself : alookup (dsetKey acc r.asset_id r.price) a = some r.price := by
          rw [hra]
          exact alookup_dsetKey_self _ _ _
        have hfind : (r :: rows).find? (fun r' => r'.asset_id == a) = some r :=
          List.find?_cons_of_pos _ (by simp [hra])
        simp [hacc, hself, hfind]
    · have hfind : (r :: rows).find? (fun r' => r'.asset_id == a) =
          rows.find? (fun r' => r'.asset_id == a) :=
        List.find?_cons_of_neg _ (by simp [hra])
      rw [hfind]
      by_cases hcond : (alookup acc r.asset_id).isNone
      · rw [if_pos hcond, alookup_dsetKey_ne _ _ _ _ (fun h => hra h.symm)]
      · rw [if_neg hcond]

/-- In a `Pairwise R` list, `find?` returns the first match: any other match
is the found element itself or stands in relation `R` to it. -/
theorem find?_first_of_pairwise (p : PriceRow → Bool) (R : PriceRow → PriceRow → Prop)
    (L : List PriceRow) (hL : L.Pairwise R) (b : PriceRow)
    (hfind : L.find? p = some b) (x : PriceRow) (hx : x ∈ L) (hpx : p x) :
    b = x ∨ R b x := by
  induction L with
  | nil => simp at hfind
  | cons y L' ih =>
    rw [List.pairwise_cons] at hL
    by_cases hy : p y
    · rw [List.find?_cons_of_pos _ hy] at hfind
      have hb : b = y := (Option.some.inj hfind).symm
      subst hb
      rcases List.mem_cons.mp hx with rfl | hx'
      · exact Or.inl rfl
      · exact Or.inr (hL.1 x hx')
    · rw [List.find?_cons_of_neg _ hy] at hfind
      rcases List.mem_cons.mp hx with rfl | hx'
      · exact absurd hpx hy
      · exact ih hL.2 hfind hx'

/-- C7: for every asset, `_latest_price_map` maps the asset to the price of
the entry with the maximum timestamp among entries in the requested base
currency, and an asset with no entry in that currency is absent from the
result (hypotheses: timestamps within an asset/currency pair identify the
entry uniquely). -/
theorem latest_price_map_spec (prices : List PriceRow) (cur : String)
    (hdistinct : ∀ p ∈ prices, ∀ q ∈ prices, p.base_currency = cur →
      q.base_currency = cur → p.asset_id = q.asset_id → p.ts = q.ts → p = q)
    (a : Int) :
    (∀ e ∈ prices, e.base_currency = cur → e.asset_id = a →
      (∀ e' ∈ prices, e'.base_currency = cur → e'.asset_id = a → e'.ts ≤ e.ts) →
      alookup (latest_price_map prices cur) a = some e.price) ∧
    ((∀ e ∈ prices, ¬(e.base_currency = cur ∧ e.asset_id = a)) →
      alookup (latest_price_map prices cur) a = none) := by
  have hfold := alookup_latest_fold
    ((prices.filter (fun p => p.base_currency == cur)).mergeSort priceLE) [] a
  have hL : alookup (latest_price_map prices cur) a =
      (((prices.filter (fun p => p.base_currency == cur)).mergeSort
        priceLE).find? (fun r => r.asset_id == a)).map PriceRow.price := by
    unfold latest_price_map
    rw [hfold]
    rfl
  have hmemL : ∀ x, x ∈ (prices.filter (fun p => p.base_currency == cur)).mergeSort
      priceLE ↔ (x ∈ prices ∧ x.base_currency = cur) := by
    intro x
    rw [List.mem_mergeSort, List.mem_filter]
    simp
  constructor
  · intro e he hecur hea hmax
    have heL : e ∈ (prices.filter (fun p => p.base_currency == cur)).mergeSort
        priceLE := (hmemL e).mpr ⟨he, hecur⟩
    cases hfind : ((prices.filter (fun p => p.base_currency == cur)).mergeSort
        priceLE).find? (fun r => r.asset_id == a) with
    | none =>
      exact absurd (List.find?_eq_none.mp hfind e heL (by simp [hea]))
        (by simp)
    | some b =>
      have hsorted := List.sorted_mergeSort
        (fun x y z hxy hyz => priceLE_trans x y z hxy hyz)
        (fun x y => priceLE_total x y)
        (prices.filter (fun p => p.base_currency == cur))
      have hba : b.asset_id = a := by
        have := List.find?_some hfind
        simpa using this
      have hbL : b ∈ (prices.filter (fun p => p.base_currency == cur)).mergeSort
          priceLE := List.mem_of_find?_eq_some hfind
      obtain ⟨hbp, hbcur⟩ := (hmemL b).mp hbL
      rcases find?_first_of_pairwise _ _ _ hsorted b hfind e heL (by simp [hea])
        with hbe | hrel
      · rw [hL, hfind, hbe]
        rfl
      · have hts : e.ts ≤ b.ts := by
          simp only [priceLE, Bool.or_eq_true, Bool.and_eq_true,
            decide_eq_true_eq, beq_iff_eq] at hrel
          rcases hrel with h | ⟨-, h2⟩
          · omega
          · exact h2
        have hts' : b.ts ≤ e.ts := hmax b hbp hbcur hba
        have hbe : b = e :=
          hdistinct b hbp e he hbcur hecur (by rw [hba, hea])
            (le_antisymm hts' hts)
        rw [hL, hfind, hbe]
        rfl
  · intro habs
    rw [hL]
    have : ((prices.filter (fun p => p.base_currency == cur)).mergeSort
        priceLE).find? (fun r => r.asset_id == a) = none := by
      rw [List.find?_eq_none]
      intro x hx
      obtain ⟨hxp, hxcur⟩ := (hmemL x).mp hx
      simp only [beq_iff_eq]
      intro hxa
      exact habs x hxp ⟨hxcur, hxa⟩
    rw [this]
    rfl

/-- Witness for C7: among two USD entries for asset 1 the later one (ts 5,
price 42) wins, at a concrete price table that also has an EUR row. -/
theorem latest_price_map_spec_witness :
    alookup
      (latest_price_map
        [⟨1, 5, 42, "USD"⟩, ⟨1, 3, 17, "USD"⟩, ⟨2, 9, 7, "EUR"⟩] "USD") 1 =
      some 42 := by
  have h := (latest_price_map_spec
      [⟨1, 5, 42, "USD"⟩, ⟨1, 3, 17, "USD"⟩, ⟨2, 9, 7, "EUR"⟩] "USD"
      (by decide) 1).1
    ⟨1, 5, 42, "USD"⟩ (by simp) rfl rfl (by decide)
  simpa using h

end Accounting
